import Mathlib

/-!
# Verification of the pdx-tools timelapse encoding pipeline

Shallow embedding of
`src/app/src/features/eu4/features/settings/TimelapseEncoder.tsx`:
the `dates` async generator (date sequencer), the `TimelapseEncoder`
orchestrator (`timelapse`, `stop`, `finish`) and the codec negotiation
helper `findSupportedEncoder`.

Conventions of the embedding:
* JavaScript numbers used for timestamps/durations/bitrates are modelled as
  exact rationals (`ℚ`); day ordinals as `Int`; counters as `Nat`.
* The external worker's `eu4IncrementDate` is an opaque parameter
  `inc : Int → DateInterval → MapDate`.
* The async generators are modelled as fuel-indexed recursions (the
  sequencer) and as a state-transition function over the list of dates the
  sequencer yields (the encode loop); the encoder/muxer pair is modelled by
  the list of chunks submitted to the muxer.
-/

namespace Timelapse

/-- A simulation date: an ordinal day count plus a human readable label.
Mirrors `MapDate` from the source; the source compares dates only by
`days`. -/
structure MapDate where
  days : Int
  text : String
  deriving DecidableEq

/-- Step granularity of the date sequencer (`DateInterval` in the source). -/
inductive DateInterval where
  | year
  | month
  | week
  | day
  deriving DecidableEq

/-- Fuel-indexed embedding of the `dates` async generator body:

```
let current = start;
while (true) {
  yield current;
  const newDate = await worker.eu4IncrementDate(current.days, step);
  if (current.days >= end.days) break;
  else if (newDate.days > end.days) current = end;
  else current = newDate;
}
```

`some l` is the finite list of yielded dates when the loop terminates
within `fuel` iterations, `none` otherwise.  (`newDate` is inlined; the
worker call is pure in this model so evaluating it twice is harmless.) -/
def datesAux (inc : Int → DateInterval → MapDate) (interval : DateInterval)
    (endD : MapDate) : Nat → MapDate → Option (List MapDate)
  | 0, _ => none
  | fuel + 1, current =>
    if endD.days ≤ current.days then
      some [current]
    else if endD.days < (inc current.days interval).days then
      (datesAux inc interval endD fuel endD).map (fun l => current :: l)
    else
      (datesAux inc interval endD fuel (inc current.days interval)).map
        (fun l => current :: l)

/-- The `dates(worker, start, end, step)` generator, run from `start`. -/
def dates (inc : Int → DateInterval → MapDate) (interval : DateInterval)
    (start endD : MapDate) (fuel : Nat) : Option (List MapDate) :=
  datesAux inc interval endD fuel start

/-- Core lemma about the sequencer loop: as long as the worker strictly
increases the day ordinal, the loop terminates with fuel
`(end.days - current.days).toNat + 1`, yields `current` first, ends on a
date whose `days` equals `end.days`, and yields non-decreasing `days`. -/
theorem datesAux_spec (inc : Int → DateInterval → MapDate)
    (interval : DateInterval) (endD : MapDate)
    (hinc : ∀ d, d < (inc d interval).days) :
    ∀ (fuel : Nat) (current : MapDate),
      current.days ≤ endD.days → (endD.days - current.days).toNat < fuel →
      ∃ l, datesAux inc interval endD fuel current = some l ∧
        l.head? = some current ∧
        l.getLast?.map MapDate.days = some endD.days ∧
        List.Chain' (fun a b => a.days ≤ b.days) l := by
  intro fuel
  induction fuel with
  | zero => intro current _ h; omega
  | succ fuel ih =>
    intro current hle hfuel
    by_cases h1 : endD.days ≤ current.days
    · have heq : current.days = endD.days := le_antisymm hle h1
      refine ⟨[current], ?_, rfl, ?_, ?_⟩
      · simp [datesAux, h1]
      · simp [heq]
      · simp
    · push_neg at h1
      by_cases h2 : endD.days < (inc current.days interval).days
      · obtain ⟨l', hl', hhead, hlast, hchain⟩ := ih endD le_rfl (by omega)
        obtain ⟨x, xs, rfl⟩ : ∃ x xs, l' = x :: xs := by
          cases l' with
          | nil => simp at hhead
          | cons x xs => exact ⟨x, xs, rfl⟩
        have hx : x = endD := by simpa using hhead
        refine ⟨current :: x :: xs, ?_, rfl, ?_, ?_⟩
        · rw [show datesAux inc interval endD (fuel + 1) current
              = (datesAux inc interval endD fuel endD).map
                  (fun l => current :: l) by
            simp [datesAux, h2, not_le.mpr h1]]
          rw [hl']
          rfl
        · rw [List.getLast?_cons_cons]
          exact hlast
        · exact List.chain'_cons.mpr ⟨by rw [hx]; exact le_of_lt h1, hchain⟩
      · push_neg at h2
        have hstep : current.days < (inc current.days interval).days :=
          hinc current.days
        obtain ⟨l', hl', hhead, hlast, hchain⟩ :=
          ih (inc current.days interval) h2 (by omega)
        obtain ⟨x, xs, rfl⟩ : ∃ x xs, l' = x :: xs := by
          cases l' with
          | nil => simp at hhead
          | cons x xs => exact ⟨x, xs, rfl⟩
        have hx : x = inc current.days interval := by simpa using hhead
        refine ⟨current :: x :: xs, ?_, rfl, ?_, ?_⟩
        · rw [show datesAux inc interval endD (fuel + 1) current
              = (datesAux inc interval endD fuel
                  (inc current.days interval)).map (fun l => current :: l) by
            simp [datesAux, not_lt.mpr h2, not_le.mpr h1]]
          rw [hl']
          rfl
        · rw [List.getLast?_cons_cons]
          exact hlast
        · exact List.chain'_cons.mpr ⟨by rw [hx]; exact le_of_lt hstep, hchain⟩

/-- C1: for `start.days ≤ end.days` (and a worker that strictly increases
the day ordinal) the sequencer terminates on a non-empty list whose first
element is `start`, whose last element has the `days` of `end` (the
source's notion of date equality), whose `days` are non-decreasing, and
which is the singleton `[start]` in the degenerate case
`start.days = end.days`. -/
theorem dates_bounds (inc : Int → DateInterval → MapDate)
    (interval : DateInterval) (start endD : MapDate)
    (hse : start.days ≤ endD.days)
    (hinc : ∀ d, d < (inc d interval).days) :
    ∃ l, dates inc interval start endD
        ((endD.days - start.days).toNat + 1) = some l ∧
      l ≠ [] ∧ l.head? = some start ∧
      l.getLast?.map MapDate.days = some endD.days ∧
      List.Chain' (fun a b => a.days ≤ b.days) l ∧
      (start.days = endD.days → l = [start]) := by
  obtain ⟨l, hl, hhead, hlast, hchain⟩ :=
    datesAux_spec inc interval endD hinc
      ((endD.days - start.days).toNat + 1) start hse (by omega)
  refine ⟨l, hl, ?_, hhead, hlast, hchain, ?_⟩
  · intro h
    rw [h] at hhead
    simp at hhead
  · intro heq
    have hfuel : (endD.days - start.days).toNat + 1 = 1 := by omega
    have hl' : datesAux inc interval endD
        ((endD.days - start.days).toNat + 1) start = some l := hl
    rw [hfuel] at hl'
    have hone : datesAux inc interval endD 1 start = some [start] := by
      simp [datesAux, show endD.days ≤ start.days by omega]
    rw [hone] at hl'
    exact (Option.some_inj.mp hl').symm

/-- Witness for C1 at a concrete worker (`d ↦ d + 1`), `start = (0, "a")`,
`end = (2, "b")`. -/
theorem dates_bounds_witness :
    ((⟨0, "a"⟩ : MapDate).days ≤ (⟨2, "b"⟩ : MapDate).days) ∧
    (∃ l, dates (fun d _ => ⟨d + 1, ""⟩) DateInterval.year ⟨0, "a"⟩ ⟨2, "b"⟩
        (((⟨2, "b"⟩ : MapDate).days - (⟨0, "a"⟩ : MapDate).days).toNat + 1)
        = some l ∧
      l ≠ [] ∧ l.head? = some ⟨0, "a"⟩ ∧
      l.getLast?.map MapDate.days = some (⟨2, "b"⟩ : MapDate).days ∧
      List.Chain' (fun a b => a.days ≤ b.days) l ∧
      ((⟨0, "a"⟩ : MapDate).days = (⟨2, "b"⟩ : MapDate).days →
        l = [⟨0, "a"⟩])) :=
  ⟨by decide,
    dates_bounds (fun d _ => ⟨d + 1, ""⟩) DateInterval.year ⟨0, "a"⟩ ⟨2, "b"⟩
      (by decide) (fun d => by show d < d + 1; omega)⟩

/-- C9: with an inverted range (`start.days > end.days`) the very first
loop iteration yields `start` and then breaks, so the sequencer emits
exactly the one element `start` — not `end`, not an empty sequence, and no
error — for every worker and every interval. -/
theorem dates_inverted_range (inc : Int → DateInterval → MapDate)
    (interval : DateInterval) (start endD : MapDate) (fuel : Nat)
    (h : endD.days < start.days) :
    dates inc interval start endD (fuel + 1) = some [start] := by
  rw [dates]
  simp [datesAux, le_of_lt h]

/-- Witness for C9: `start = (5, "s")`, `end = (2, "e")`. -/
theorem dates_inverted_range_witness :
    ((⟨2, "e"⟩ : MapDate).days < (⟨5, "s"⟩ : MapDate).days) ∧
    dates (fun d _ => ⟨d + 1, ""⟩) DateInterval.day ⟨5, "s"⟩ ⟨2, "e"⟩ 1
      = some [⟨5, "s"⟩] :=
  ⟨by decide,
    dates_inverted_range (fun d _ => ⟨d + 1, ""⟩) DateInterval.day
      ⟨5, "s"⟩ ⟨2, "e"⟩ 0 (by decide)⟩

/-- Shape of every terminating sequencer run: the yielded list splits as
`pre ++ [last]` where every date in `pre` has `days < end.days` and the
final date has `days ≥ end.days`.  (Exactly the final emission satisfies
the source's `isFinalFrame` test.) -/
theorem datesAux_shape (inc : Int → DateInterval → MapDate)
    (interval : DateInterval) (endD : MapDate) :
    ∀ (fuel : Nat) (current : MapDate) (l : List MapDate),
      datesAux inc interval endD fuel current = some l →
      ∃ pre lst, l = pre ++ [lst] ∧
        (∀ d ∈ pre, d.days < endD.days) ∧ endD.days ≤ lst.days := by
  intro fuel
  induction fuel with
  | zero => intro current l h; simp [datesAux] at h
  | succ fuel ih =>
    intro current l h
    by_cases h1 : endD.days ≤ current.days
    · rw [show datesAux inc interval endD (fuel + 1) current = some [current]
          by simp [datesAux, h1]] at h
      refine ⟨[], current, ?_, by simp, h1⟩
      rw [← Option.some_inj.mp h]
      rfl
    · by_cases h2 : endD.days < (inc current.days interval).days
      · rw [show datesAux inc interval endD (fuel + 1) current
            = (datesAux inc interval endD fuel endD).map
                (fun l => current :: l) by simp [datesAux, h1, h2]] at h
        obtain ⟨l', hl', rfl⟩ := Option.map_eq_some'.mp h
        obtain ⟨pre, lst, rfl, hpre, hlst⟩ := ih endD l' hl'
        exact ⟨current :: pre, lst, rfl, by
          intro d hd
          rcases List.mem_cons.mp hd with rfl | hd
          · omega
          · exact hpre d hd, hlst⟩
      · rw [show datesAux inc interval endD (fuel + 1) current
            = (datesAux inc interval endD fuel
                (inc current.days interval)).map (fun l => current :: l) by
            simp [datesAux, h1, h2]] at h
        obtain ⟨l', hl', rfl⟩ := Option.map_eq_some'.mp h
        obtain ⟨pre, lst, rfl, hpre, hlst⟩ :=
          ih (inc current.days interval) l' hl'
        exact ⟨current :: pre, lst, rfl, by
          intro d hd
          rcases List.mem_cons.mp hd with rfl | hd
          · omega
          · exact hpre d hd, hlst⟩

/-- One chunk submitted to the muxer: the frame's presentation timestamp
and duration in microseconds (exact rationals), the keyframe tag computed
at the encode call, and the `days` of the date whose composited raster the
frame shows. -/
structure EncodeEvent where
  timestamp : ℚ
  duration : ℚ
  keyFrame : Bool
  dateDays : Int
  deriving DecidableEq

/-- The mutable fields of `TimelapseEncoder`: `error` (set by the encoder's
asynchronous error callback), `timestamp` (the cursor), `frameCount`,
`stopRequested`, and the list of chunks the muxer has received. -/
structure EncState where
  error : Option String
  timestamp : ℚ
  frameCount : Nat
  stopRequested : Bool
  muxed : List EncodeEvent
  deriving DecidableEq

/-- Field values after the constructor runs. -/
def initState : EncState :=
  { error := none, timestamp := 0, frameCount := 0, stopRequested := false,
    muxed := [] }

/-- One `encoder.encode(frame, { keyFrame: (this.frameCount += 1) % 150 == 0 })`
call followed by its flush: the chunk reaches the muxer, tagged as a
keyframe iff the post-increment counter is divisible by 150. -/
def encodeFrame (st : EncState) (ts dur : ℚ) (d : Int) : EncState :=
  { st with
    frameCount := st.frameCount + 1,
    muxed := st.muxed ++
      [⟨ts, dur, decide ((st.frameCount + 1) % 150 = 0), d⟩] }

/-- The freeze-frame loop
`for (let t = this.timestamp; t < this.timestamp + this.freezeFrame * 1_000_000; t += frameDuration)`
as a fuel-indexed recursion; `limit` is the (loop-constant) bound
`this.timestamp + freezeFrame * 1_000_000` and `t` the loop variable.
Note the loop reads but never writes `st.timestamp`. -/
def freezeAux (fd limit : ℚ) (d : Int) : Nat → ℚ → EncState → EncState
  | 0, _, st => st
  | fuel + 1, t, st =>
    if t < limit then
      freezeAux fd limit d fuel (t + fd) (encodeFrame st t fd d)
    else st

/-- The per-run parameters of `timelapse()`: the end date's day ordinal and
the constructor-provided frame rate and freeze-frame hold (seconds). -/
structure RunCfg where
  endDays : Int
  fps : Nat
  freezeFrame : Nat
  deriving DecidableEq

/-- `const frameDuration = 1_000_000 / this.fps` (microseconds). -/
def frameDuration (cfg : RunCfg) : ℚ :=
  1000000 / (cfg.fps : ℚ)

/-- The body of one `timelapse()` loop iteration after the error/stop
checkpoints: encode the composited frame for `date` at the cursor, advance
the cursor by one frame duration, and if `date.days >= this.endDate.days`
run the freeze-frame loop.  The freeze loop's fuel
`freezeFrame * fps + 1` strictly dominates its iteration count whenever
`fps > 0` (proved below in `freezeAux_len`), so the fuel never runs out in
the cases the claims are about. -/
def encStep (cfg : RunCfg) (st : EncState) (date : MapDate) : EncState :=
  let fd := frameDuration cfg
  let st1 := encodeFrame st st.timestamp fd date.days
  let st2 := { st1 with timestamp := st1.timestamp + fd }
  if cfg.endDays ≤ date.days then
    freezeAux fd (st2.timestamp + (cfg.freezeFrame : ℚ) * 1000000) date.days
      (cfg.freezeFrame * cfg.fps + 1) st2.timestamp st2
  else st2

/-- What the environment may do between two date checkpoints: the encoder's
asynchronous error callback may fire (`this.error = e`), and `stop()` may
be called (`this.stopRequested = true`). -/
structure EnvAct where
  injectErr : Option String
  callStop : Bool
  deriving DecidableEq

/-- The quiet environment: no error callback, no `stop()` call. -/
def cleanAct : EnvAct :=
  ⟨none, false⟩

/-- Apply the environment's actions to the encoder state. -/
def applyEnv (a : EnvAct) (st : EncState) : EncState :=
  { st with
    error := match a.injectErr with
      | some m => some m
      | none => st.error,
    stopRequested := st.stopRequested || a.callStop }

/-- How a drive of the `timelapse()` generator ends: the date list was
exhausted, `stopRequested` was observed at a checkpoint, or the captured
error was re-thrown at a checkpoint. -/
inductive Outcome where
  | completed (st : EncState)
  | stoppedEarly (st : EncState)
  | thrown (msg : String) (st : EncState)
  deriving DecidableEq

/-- The encoder state at the end of the drive. -/
def Outcome.state : Outcome → EncState
  | .completed st => st
  | .stoppedEarly st => st
  | .thrown _ st => st

/-- The `timelapse()` loop over the dates the sequencer yields, each paired
with the environment actions that happen before its checkpoint:

```
for await (const date of dates(...)) {
  if (this.error) throw new Error(this.error.message);
  if (this.stopRequested) return;
  ... // encStep
  yield date;
}
```
-/
def runTimelapse (cfg : RunCfg) :
    List (MapDate × EnvAct) → EncState → Outcome
  | [], st => Outcome.completed st
  | (d, a) :: rest, st =>
    let st1 := applyEnv a st
    match st1.error with
    | some msg => Outcome.thrown msg st1
    | none =>
      if st1.stopRequested then Outcome.stoppedEarly st1
      else runTimelapse cfg rest (encStep cfg st1 d)

/-- A drive of `timelapse()` in which the environment stays quiet. -/
def runClean (cfg : RunCfg) (ds : List MapDate) (st : EncState) : Outcome :=
  runTimelapse cfg (ds.map (fun d => (d, cleanAct))) st

/-- `stop() { this.stopRequested = true; }` -/
def stop (st : EncState) : EncState :=
  { st with stopRequested := true }

/-- Modelled from the spec: the `webm-muxer` library's `finalize()` is not
part of this repository; per the spec it yields no data exactly when no
frames were ever muxed (e.g. zero encode calls), and otherwise yields the
muxed output. -/
def muxerFinalize (muxed : List EncodeEvent) : Option (List EncodeEvent) :=
  if muxed.isEmpty then none else some muxed

/-- Result of `finish()`: what it returns or throws, and whether
`this.encoder.close()` was executed. -/
structure FinishOutcome where
  result : Except String (List EncodeEvent)
  encoderClosed : Bool

/-- `finish()`:

```
const out = this.muxer.finalize();
if (out == null) { throw new Error("empty muxer"); }
this.encoder.close();
return out;
```

The throw happens before `this.encoder.close()`, so on the empty-muxer
path the close is never executed. -/
def finish (st : EncState) : FinishOutcome :=
  match muxerFinalize st.muxed with
  | none => ⟨Except.error "empty muxer", false⟩
  | some out => ⟨Except.ok out, true⟩

/-- The candidate list of the codec negotiator, most preferred first:
`(codec string, muxer codec tag)`. -/
def codecCandidates : List (String × String) :=
  [("vp09.00.10.08", "V_VP9"), ("vp8", "V_VP8")]

/-- The configuration passed to `VideoEncoder.isConfigSupported` for one
candidate codec at the recording canvas resolution and requested frame
rate. -/
structure SupportQuery where
  codec : String
  width : Nat
  height : Nat
  bitrateMode : String
  bitrate : ℚ
  framerate : Nat
  deriving DecidableEq

/-- Builds the capability query of `findSupportedEncoder`:
`canvasRate = (height * width) / 4`,
`bitrate = canvasRate * (fps / 15) + 200_000`, clamped by
`Math.min(bitrate, 2_000_000)`, with variable bitrate mode. -/
def mkSupportQuery (codec : String) (width height fps : Nat) : SupportQuery :=
  { codec := codec, width := width, height := height,
    bitrateMode := "variable",
    bitrate :=
      min ((height : ℚ) * (width : ℚ) / 4 * ((fps : ℚ) / 15) + 200000)
        2000000,
    framerate := fps }

/-- The value returned by a successful negotiation (the source merges the
platform's refined config into this; the claims only concern the chosen
candidate). -/
structure ChosenCodec where
  codec : String
  webmCodec : String
  deriving DecidableEq

/-- `findSupportedEncoder`: try the candidates in order against the
platform support oracle `supp` (a `VideoEncoder.isConfigSupported` report;
a thrown probe counts as unsupported via the empty `catch`); the first
supported candidate wins, and if none is supported the negotiation fails
with `"No supported codecs found"`. -/
def findSupportedEncoder (supp : SupportQuery → Bool)
    (width height fps : Nat) : Except String ChosenCodec :=
  match codecCandidates.find?
      (fun c => supp (mkSupportQuery c.1 width height fps)) with
  | some c => Except.ok ⟨c.1, c.2⟩
  | none => Except.error "No supported codecs found"

/-! ## Basic preservation lemmas -/

theorem encodeFrame_muxed_len (st : EncState) (ts dur : ℚ) (d : Int) :
    (encodeFrame st ts dur d).muxed.length = st.muxed.length + 1 := by
  simp [encodeFrame]

theorem freezeAux_preserves (fd limit : ℚ) (d : Int) :
    ∀ (fuel : Nat) (t : ℚ) (st : EncState),
      (freezeAux fd limit d fuel t st).error = st.error ∧
      (freezeAux fd limit d fuel t st).stopRequested = st.stopRequested ∧
      (freezeAux fd limit d fuel t st).timestamp = st.timestamp := by
  intro fuel
  induction fuel with
  | zero => intro t st; exact ⟨rfl, rfl, rfl⟩
  | succ fuel ih =>
    intro t st
    simp only [freezeAux]
    split
    · exact ⟨(ih _ _).1, (ih _ _).2.1, (ih _ _).2.2⟩
    · exact ⟨rfl, rfl, rfl⟩

theorem encStep_error (cfg : RunCfg) (st : EncState) (date : MapDate) :
    (encStep cfg st date).error = st.error := by
  simp only [encStep]
  split
  · exact (freezeAux_preserves _ _ _ _ _ _).1
  · rfl

theorem encStep_stop (cfg : RunCfg) (st : EncState) (date : MapDate) :
    (encStep cfg st date).stopRequested = st.stopRequested := by
  simp only [encStep]
  split
  · exact (freezeAux_preserves _ _ _ _ _ _).2.1
  · rfl

theorem applyEnv_clean (st : EncState) : applyEnv cleanAct st = st := by
  cases st
  simp [applyEnv, cleanAct]

/-- A quiet drive of `timelapse()` never throws and never stops early: it
completes after folding `encStep` over the yielded dates. -/
theorem runTimelapse_clean (cfg : RunCfg) :
    ∀ (ds : List MapDate) (st : EncState), st.error = none →
      st.stopRequested = false →
      runTimelapse cfg (ds.map (fun d => (d, cleanAct))) st
        = Outcome.completed (ds.foldl (encStep cfg) st) := by
  intro ds
  induction ds with
  | nil => intro st _ _; rfl
  | cons d ds ih =>
    intro st herr hstop
    simp only [List.map_cons, List.foldl_cons, runTimelapse, applyEnv_clean,
      herr, hstop]
    exact ih (encStep cfg st d)
      (by rw [encStep_error]; exact herr)
      (by rw [encStep_stop]; exact hstop)

/-! ## C10: `stop()` -/

/-- C10: `stop()` only sets the `stopRequested` flag.  It is a total pure
function in this model (so it cannot throw), it is idempotent, and it
leaves the cursor, the frame counter, the captured error and the muxed
output unchanged. -/
theorem stop_only_sets_flag (st : EncState) :
    stop (stop st) = stop st ∧ (stop st).stopRequested = true ∧
    (stop st).error = st.error ∧ (stop st).timestamp = st.timestamp ∧
    (stop st).frameCount = st.frameCount ∧ (stop st).muxed = st.muxed :=
  ⟨rfl, rfl, rfl, rfl, rfl, rfl⟩

/-! ## C5: `finish()` -/

/-- C5 counterexample: on a pipeline with zero encoded frames, `finish()`
throws the "empty muxer" error and `this.encoder.close()` is never
executed — the throw precedes the close — refuting "always closes the
encoder resource as its last step regardless of whether finalization
succeeded". -/
theorem finish_skips_close_counterexample :
    (finish initState).result = Except.error "empty muxer" ∧
    (finish initState).encoderClosed = false :=
  ⟨rfl, rfl⟩

/-- C5 (amended): `finish()` fails with the "empty muxer" error exactly
when muxer finalization yields no data (which, by the spec's contract for
the external muxer, happens exactly when zero frames were muxed), and it
closes the encoder exactly when finalization succeeded — on the
empty-muxer throw the close is not reached. -/
theorem finish_empty_muxer (st : EncState) :
    ((finish st).result = Except.error "empty muxer" ↔
      muxerFinalize st.muxed = none) ∧
    ((finish st).encoderClosed = true ↔ muxerFinalize st.muxed ≠ none) ∧
    (muxerFinalize st.muxed = none ↔ st.muxed = []) := by
  cases hm : st.muxed with
  | nil => simp [finish, muxerFinalize, hm]
  | cons a l => simp [finish, muxerFinalize, hm]

/-! ## C6: codec negotiation -/

/-- C6: negotiation tries vp9 then vp8 in order, picks the first candidate
the platform reports as supported (vp8 only when vp9 is reported absent),
fails with the "No supported codecs found" error when neither is
supported, and every capability query carries
`bitrate = min(width*height/4 * (fps/15) + 200_000, 2_000_000)` with
variable bitrate mode. -/
theorem codec_selection (supp : SupportQuery → Bool) (w h fps : Nat) :
    (supp (mkSupportQuery "vp09.00.10.08" w h fps) = true →
      findSupportedEncoder supp w h fps
        = Except.ok ⟨"vp09.00.10.08", "V_VP9"⟩) ∧
    (supp (mkSupportQuery "vp09.00.10.08" w h fps) = false →
      supp (mkSupportQuery "vp8" w h fps) = true →
      findSupportedEncoder supp w h fps = Except.ok ⟨"vp8", "V_VP8"⟩) ∧
    (supp (mkSupportQuery "vp09.00.10.08" w h fps) = false →
      supp (mkSupportQuery "vp8" w h fps) = false →
      findSupportedEncoder supp w h fps
        = Except.error "No supported codecs found") ∧
    (mkSupportQuery "vp09.00.10.08" w h fps).bitrate
      = min ((w : ℚ) * (h : ℚ) / 4 * ((fps : ℚ) / 15) + 200000) 2000000 ∧
    (mkSupportQuery "vp09.00.10.08" w h fps).bitrateMode = "variable" ∧
    (mkSupportQuery "vp8" w h fps).bitrate
      = min ((w : ℚ) * (h : ℚ) / 4 * ((fps : ℚ) / 15) + 200000) 2000000 ∧
    (mkSupportQuery "vp8" w h fps).bitrateMode = "variable" := by
  have hbit : (h : ℚ) * (w : ℚ) / 4 * ((fps : ℚ) / 15) + 200000
      = (w : ℚ) * (h : ℚ) / 4 * ((fps : ℚ) / 15) + 200000 := by ring
  refine ⟨?_, ?_, ?_, ?_, rfl, ?_, rfl⟩
  · intro h9
    simp [findSupportedEncoder, codecCandidates, h9]
  · intro h9 h8
    simp [findSupportedEncoder, codecCandidates, h9, h8]
  · intro h9 h8
    simp [findSupportedEncoder, codecCandidates, h9, h8]
  · simp [mkSupportQuery, hbit]
  · simp [mkSupportQuery, hbit]

/-- Witness for C6 at the spec's instance: 1920×1080 at 30 fps with a
platform that supports exactly the vp9 candidate; the query bitrate is
`min(1920*1080/4 * 2 + 200_000, 2_000_000) = 1_236_800`. -/
theorem codec_selection_witness :
    ((fun q : SupportQuery => q.codec == "vp09.00.10.08")
        (mkSupportQuery "vp09.00.10.08" 1920 1080 30) = true) ∧
    findSupportedEncoder (fun q : SupportQuery => q.codec == "vp09.00.10.08")
        1920 1080 30 = Except.ok ⟨"vp09.00.10.08", "V_VP9"⟩ ∧
    (mkSupportQuery "vp09.00.10.08" 1920 1080 30).bitrate = 1236800 :=
  ⟨by decide,
    (codec_selection (fun q : SupportQuery => q.codec == "vp09.00.10.08")
        1920 1080 30).1 (by decide),
    by
      have h1 : ((1080 : Nat) : ℚ) * ((1920 : Nat) : ℚ) / 4 *
          (((30 : Nat) : ℚ) / 15) + 200000 = 1236800 := by norm_num
      simp only [mkSupportQuery]
      rw [h1, min_eq_left (by norm_num)]⟩

/-! ## C7: captured errors stop the pipeline at the next checkpoint -/

/-- After a clean prefix of checkpoints, an error captured by the encoder's
asynchronous callback before the next checkpoint makes that checkpoint
throw the captured message; the drive ends there, with the muxed output
exactly that of the clean prefix. -/
theorem runTimelapse_err_checkpoint (cfg : RunCfg) (msg : String)
    (d : MapDate) (rest : List (MapDate × EnvAct)) :
    ∀ (pre : List MapDate) (st : EncState), st.error = none →
      st.stopRequested = false →
      runTimelapse cfg
          (pre.map (fun x => (x, cleanAct)) ++ (d, ⟨some msg, false⟩) :: rest)
          st
        = Outcome.thrown msg
            (applyEnv ⟨some msg, false⟩ (pre.foldl (encStep cfg) st)) := by
  intro pre
  induction pre with
  | nil => intro st herr hstop; rfl
  | cons p ps ih =>
    intro st herr hstop
    simp only [List.map_cons, List.cons_append, List.foldl_cons,
      runTimelapse, applyEnv_clean, herr, hstop]
    exact ih (encStep cfg st p)
      (by rw [encStep_error]; exact herr)
      (by rw [encStep_stop]; exact hstop)

/-- C7: once the encoder's error callback has set the captured error, the
next visited checkpoint of `timelapse()` throws an error carrying the
captured message, no frame for that or any later date is ever submitted
(the drive ends at the throw), and the muxed output is exactly that of the
dates processed before the error. -/
theorem error_checkpoint_throws (cfg : RunCfg) (pre : List MapDate)
    (d : MapDate) (msg : String) (rest : List (MapDate × EnvAct)) :
    runTimelapse cfg
        (pre.map (fun x => (x, cleanAct)) ++ (d, ⟨some msg, false⟩) :: rest)
        initState
      = Outcome.thrown msg
          (applyEnv ⟨some msg, false⟩ (pre.foldl (encStep cfg) initState)) ∧
    (applyEnv ⟨some msg, false⟩ (pre.foldl (encStep cfg) initState)).muxed
      = (pre.foldl (encStep cfg) initState).muxed :=
  ⟨runTimelapse_err_checkpoint cfg msg d rest pre initState rfl rfl, rfl⟩

/-! ## C8: `stop()` before a checkpoint -/

theorem encodeFrame_days (st : EncState) (ts dur : ℚ) (d : Int) :
    ∀ ev ∈ (encodeFrame st ts dur d).muxed,
      ev ∈ st.muxed ∨ ev.dateDays = d := by
  intro ev hev
  simp only [encodeFrame, List.mem_append, List.mem_singleton] at hev
  rcases hev with h | h
  · exact Or.inl h
  · exact Or.inr (by rw [h])

theorem freezeAux_days (fd limit : ℚ) (d : Int) :
    ∀ (fuel : Nat) (t : ℚ) (st : EncState),
      ∀ ev ∈ (freezeAux fd limit d fuel t st).muxed,
        ev ∈ st.muxed ∨ ev.dateDays = d := by
  intro fuel
  induction fuel with
  | zero => intro t st ev hev; exact Or.inl hev
  | succ fuel ih =>
    intro t st ev hev
    simp only [freezeAux] at hev
    by_cases hg : t < limit
    · rw [if_pos hg] at hev
      rcases ih (t + fd) (encodeFrame st t fd d) ev hev with h | h
      · exact encodeFrame_days st t fd d ev h
      · exact Or.inr h
    · rw [if_neg hg] at hev
      exact Or.inl hev

theorem encStep_days (cfg : RunCfg) (st : EncState) (date : MapDate) :
    ∀ ev ∈ (encStep cfg st date).muxed,
      ev ∈ st.muxed ∨ ev.dateDays = date.days := by
  intro ev hev
  simp only [encStep] at hev
  by_cases hf : cfg.endDays ≤ date.days
  · rw [if_pos hf] at hev
    rcases freezeAux_days _ _ _ _ _ _ ev hev with h | h
    · exact encodeFrame_days st st.timestamp (frameDuration cfg) date.days
        ev h
    · exact Or.inr h
  · rw [if_neg hf] at hev
    exact encodeFrame_days st st.timestamp (frameDuration cfg) date.days ev
      hev

theorem foldl_days (cfg : RunCfg) :
    ∀ (pre : List MapDate) (st : EncState) (ev : EncodeEvent),
      ev ∈ (pre.foldl (encStep cfg) st).muxed →
      ev ∈ st.muxed ∨ ev.dateDays ∈ pre.map MapDate.days := by
  intro pre
  induction pre with
  | nil => intro st ev h; exact Or.inl h
  | cons p ps ih =>
    intro st ev h
    rcases ih (encStep cfg st p) ev h with h' | h'
    · rcases encStep_days cfg st p ev h' with h'' | h''
      · exact Or.inl h''
      · exact Or.inr (by simp [h''])
    · refine Or.inr ?_
      simp only [List.map_cons, List.mem_cons]
      exact Or.inr h'

/-- After a clean prefix of checkpoints, a `stop()` issued before the next
checkpoint makes that checkpoint return early; the drive ends there with
the muxed output of the clean prefix intact. -/
theorem runTimelapse_stop_checkpoint (cfg : RunCfg) (d : MapDate)
    (rest : List (MapDate × EnvAct)) :
    ∀ (pre : List MapDate) (st : EncState), st.error = none →
      st.stopRequested = false →
      runTimelapse cfg
          (pre.map (fun x => (x, cleanAct)) ++ (d, ⟨none, true⟩) :: rest) st
        = Outcome.stoppedEarly
            (applyEnv ⟨none, true⟩ (pre.foldl (encStep cfg) st)) := by
  intro pre
  induction pre with
  | nil =>
    intro st herr hstop
    simp [runTimelapse, applyEnv, herr]
  | cons p ps ih =>
    intro st herr hstop
    simp only [List.map_cons, List.cons_append, List.foldl_cons,
      runTimelapse, applyEnv_clean, herr, hstop]
    exact ih (encStep cfg st p)
      (by rw [encStep_error]; exact herr)
      (by rw [encStep_stop]; exact hstop)

/-- C8: if `stop()` is called before the checkpoint of date `d`, the drive
returns early at that checkpoint: no frame for `d` or any later date is
encoded, every frame of the strictly earlier dates is still in the muxer,
and when any frame was encoded the output is still finalizable via
`finish()`. -/
theorem stop_prevents_later_frames (cfg : RunCfg) (pre : List MapDate)
    (d : MapDate) (rest : List (MapDate × EnvAct)) :
    runTimelapse cfg
        (pre.map (fun x => (x, cleanAct)) ++ (d, ⟨none, true⟩) :: rest)
        initState
      = Outcome.stoppedEarly
          (applyEnv ⟨none, true⟩ (pre.foldl (encStep cfg) initState)) ∧
    (applyEnv ⟨none, true⟩ (pre.foldl (encStep cfg) initState)).muxed
      = (pre.foldl (encStep cfg) initState).muxed ∧
    (∀ ev ∈ (pre.foldl (encStep cfg) initState).muxed,
      ev.dateDays ∈ pre.map MapDate.days) ∧
    ((pre.foldl (encStep cfg) initState).muxed ≠ [] →
      (finish (applyEnv ⟨none, true⟩
          (pre.foldl (encStep cfg) initState))).result
        = Except.ok (pre.foldl (encStep cfg) initState).muxed) := by
  refine ⟨runTimelapse_stop_checkpoint cfg d rest pre initState rfl rfl,
    rfl, ?_, ?_⟩
  · intro ev hev
    rcases foldl_days cfg pre initState ev hev with h | h
    · simp [initState] at h
    · exact h
  · intro hne
    cases hm : (pre.foldl (encStep cfg) initState).muxed with
    | nil => exact absurd hm hne
    | cons a l =>
      show (finish _).result = _
      simp [finish, muxerFinalize, applyEnv, hm]

/-- Witness for C8: one clean date, then a `stop()` before the second
date's checkpoint. -/
theorem stop_prevents_witness :
    runTimelapse ⟨10, 1, 0⟩
        ([⟨0, "a"⟩].map (fun x => (x, cleanAct)) ++
          (⟨1, "b"⟩, ⟨none, true⟩) :: [])
        initState
      = Outcome.stoppedEarly
          (applyEnv ⟨none, true⟩
            ([⟨0, "a"⟩].foldl (encStep ⟨10, 1, 0⟩) initState)) ∧
    (finish (applyEnv ⟨none, true⟩
        ([⟨0, "a"⟩].foldl (encStep ⟨10, 1, 0⟩) initState))).result
      = Except.ok ([⟨0, "a"⟩].foldl (encStep ⟨10, 1, 0⟩) initState).muxed :=
  ⟨(stop_prevents_later_frames ⟨10, 1, 0⟩ [⟨0, "a"⟩] ⟨1, "b"⟩ []).1,
    (stop_prevents_later_frames ⟨10, 1, 0⟩ [⟨0, "a"⟩] ⟨1, "b"⟩ []).2.2.2
      (by decide)⟩

/-! ## C2: keyframe cadence -/

theorem getElem_append_one {α : Type} (l : List α) (a : α) (i : Nat)
    (h : i < (l ++ [a]).length) :
    (l ++ [a])[i] = if hi : i < l.length then l[i] else a := by
  by_cases hi : i < l.length
  · rw [dif_pos hi, List.getElem_append_left hi]
  · rw [dif_neg hi]
    have hlen : i = l.length := by
      simp only [List.length_append, List.length_singleton] at h
      omega
    exact List.getElem_concat_length l a i hlen h

/-- The keyframe/counter invariant of the encode loop: the counter equals
the number of chunks muxed so far, and the `i`-th chunk (0-indexed) is a
keyframe iff the 1-indexed position `i + 1` is divisible by 150. -/
def KeySpec (st : EncState) : Prop :=
  st.frameCount = st.muxed.length ∧
  ∀ i (h : i < st.muxed.length),
    (st.muxed[i]).keyFrame = decide ((i + 1) % 150 = 0)

theorem encodeFrame_key (st : EncState) (ts dur : ℚ) (d : Int)
    (hk : KeySpec st) : KeySpec (encodeFrame st ts dur d) := by
  obtain ⟨hc, hget⟩ := hk
  constructor
  · simp [encodeFrame, hc]
  · intro i hi
    have hi' : i < st.muxed.length + 1 := by
      rw [encodeFrame_muxed_len] at hi
      exact hi
    show ((st.muxed ++
        [⟨ts, dur, decide ((st.frameCount + 1) % 150 = 0), d⟩])[i]).keyFrame
      = decide ((i + 1) % 150 = 0)
    rw [getElem_append_one]
    by_cases hlt : i < st.muxed.length
    · rw [dif_pos hlt]
      exact hget i hlt
    · rw [dif_neg hlt]
      have hieq : i = st.muxed.length := by omega
      subst hieq
      rw [hc]

theorem freezeAux_key (fd limit : ℚ) (d : Int) :
    ∀ (fuel : Nat) (t : ℚ) (st : EncState), KeySpec st →
      KeySpec (freezeAux fd limit d fuel t st) := by
  intro fuel
  induction fuel with
  | zero => intro t st h; exact h
  | succ fuel ih =>
    intro t st h
    simp only [freezeAux]
    split
    · exact ih _ _ (encodeFrame_key _ _ _ _ h)
    · exact h

theorem encStep_key (cfg : RunCfg) (st : EncState) (date : MapDate)
    (h : KeySpec st) : KeySpec (encStep cfg st date) := by
  simp only [encStep]
  split
  · exact freezeAux_key _ _ _ _ _ _ (encodeFrame_key _ _ _ _ h)
  · exact encodeFrame_key _ _ _ _ h

theorem runTimelapse_key (cfg : RunCfg) :
    ∀ (L : List (MapDate × EnvAct)) (st : EncState), KeySpec st →
      KeySpec ((runTimelapse cfg L st).state) := by
  intro L
  induction L with
  | nil => intro st h; exact h
  | cons da rest ih =>
    obtain ⟨d, a⟩ := da
    intro st h
    have h1 : KeySpec (applyEnv a st) := h
    cases herr : (applyEnv a st).error with
    | some msg =>
      simp only [runTimelapse, herr]
      exact h1
    | none =>
      by_cases hstop : (applyEnv a st).stopRequested = true
      · simp only [runTimelapse, herr, hstop, if_true]
        exact h1
      · simp only [runTimelapse, herr, if_neg hstop]
        exact ih (encStep cfg (applyEnv a st) d) (encStep_key _ _ _ h1)

/-- C2: in every drive of `timelapse()` from the freshly constructed
state — whatever the environment injects and however the dates fall into
the stepped and freeze-frame phases — each encode call increments the
frame counter by exactly 1, the counter is never reset (it always equals
the total number of muxed chunks), and the `i`-th encode call (1-indexed,
so position `i + 1` for 0-indexed `i`) is tagged as a keyframe iff its
1-indexed position is divisible by 150. -/
theorem keyframe_cadence (cfg : RunCfg) (L : List (MapDate × EnvAct)) :
    (∀ (st : EncState) (ts dur : ℚ) (d : Int),
      (encodeFrame st ts dur d).frameCount = st.frameCount + 1) ∧
    (runTimelapse cfg L initState).state.frameCount
      = (runTimelapse cfg L initState).state.muxed.length ∧
    ∀ i (h : i < (runTimelapse cfg L initState).state.muxed.length),
      (((runTimelapse cfg L initState).state.muxed)[i]).keyFrame
        = decide ((i + 1) % 150 = 0) := by
  have h := runTimelapse_key cfg L initState
    ⟨rfl, fun i hi => by simp [initState] at hi⟩
  exact ⟨fun st ts dur d => rfl, h.1, h.2⟩

/-- Witness for C2: a one-date run; its only chunk is not a keyframe. -/
theorem keyframe_cadence_witness :
    (runTimelapse ⟨10, 1, 0⟩ [(⟨0, "a"⟩, cleanAct)] initState).state.frameCount
      = (runTimelapse ⟨10, 1, 0⟩ [(⟨0, "a"⟩, cleanAct)]
          initState).state.muxed.length ∧
    ((runTimelapse ⟨10, 1, 0⟩ [(⟨0, "a"⟩, cleanAct)] initState).state.muxed.get
        ⟨0, by decide⟩).keyFrame = decide ((0 + 1) % 150 = 0) :=
  ⟨(keyframe_cadence ⟨10, 1, 0⟩ [(⟨0, "a"⟩, cleanAct)]).2.1,
    (keyframe_cadence ⟨10, 1, 0⟩ [(⟨0, "a"⟩, cleanAct)]).2.2 0 (by decide)⟩

/-! ## Counting encode calls (C3) -/

/-- Definitional unfolding of one freeze-loop iteration. -/
theorem freezeAux_succ (fd limit : ℚ) (d : Int) (fuel : Nat) (t : ℚ)
    (st : EncState) :
    freezeAux fd limit d (fuel + 1) t st
      = if t < limit then
          freezeAux fd limit d fuel (t + fd) (encodeFrame st t fd d)
        else st := rfl

theorem freezeAux_len (fd : ℚ) (hfd : 0 < fd) (limit : ℚ) (d : Int) :
    ∀ (m : Nat) (t : ℚ) (st : EncState), t + m * fd = limit →
      (freezeAux fd limit d (m + 1) t st).muxed.length
        = st.muxed.length + m := by
  intro m
  induction m with
  | zero =>
    intro t st ht
    have ht' : t = limit := by push_cast at ht; linarith
    rw [freezeAux_succ, if_neg (by rw [ht']; exact lt_irrefl limit)]
    omega
  | succ m ih =>
    intro t st ht
    have hpos : (0 : ℚ) < ((m : ℚ) + 1) * fd := by positivity
    have hlt : t < limit := by push_cast at ht; nlinarith
    rw [freezeAux_succ, if_pos hlt,
      ih (t + fd) (encodeFrame st t fd d) (by push_cast at ht ⊢; linarith),
      encodeFrame_muxed_len]
    omega

/-- With `fps > 0`, the freeze-frame loop runs exactly
`freezeFrame * fps` iterations (so the fuel `freezeFrame * fps + 1`
supplied in `encStep` never runs out). -/
theorem freeze_phase_len (cfg : RunCfg) (hfps : 0 < cfg.fps) (d : Int)
    (t : ℚ) (st2 : EncState) :
    (freezeAux (frameDuration cfg)
        (t + (cfg.freezeFrame : ℚ) * 1000000) d
        (cfg.freezeFrame * cfg.fps + 1) t st2).muxed.length
      = st2.muxed.length + cfg.freezeFrame * cfg.fps := by
  have hq : (0 : ℚ) < (cfg.fps : ℚ) := by exact_mod_cast hfps
  have hfd : 0 < frameDuration cfg := by
    unfold frameDuration
    positivity
  refine freezeAux_len (frameDuration cfg) hfd _ d
    (cfg.freezeFrame * cfg.fps) t st2 ?_
  have harith : ((cfg.freezeFrame * cfg.fps : Nat) : ℚ) * frameDuration cfg
      = (cfg.freezeFrame : ℚ) * 1000000 := by
    unfold frameDuration
    push_cast
    field_simp
    ring
  rw [harith]

theorem encStep_len_nonfinal (cfg : RunCfg) (st : EncState) (date : MapDate)
    (h : date.days < cfg.endDays) :
    (encStep cfg st date).muxed.length = st.muxed.length + 1 := by
  simp only [encStep]
  rw [if_neg (not_le.mpr h)]
  exact encodeFrame_muxed_len st st.timestamp (frameDuration cfg) date.days

theorem encStep_len_final (cfg : RunCfg) (hfps : 0 < cfg.fps)
    (st : EncState) (date : MapDate) (h : cfg.endDays ≤ date.days) :
    (encStep cfg st date).muxed.length
      = st.muxed.length + 1 + cfg.freezeFrame * cfg.fps := by
  simp only [encStep]
  rw [if_pos h, freeze_phase_len cfg hfps date.days]
  simp only [encodeFrame, List.length_append, List.length_singleton]

theorem foldl_nonfinal_len (cfg : RunCfg) :
    ∀ (pre : List MapDate) (st : EncState),
      (∀ d ∈ pre, d.days < cfg.endDays) →
      (pre.foldl (encStep cfg) st).muxed.length
        = st.muxed.length + pre.length := by
  intro pre
  induction pre with
  | nil => intro st _; simp
  | cons p ps ih =>
    intro st hpre
    simp only [List.foldl_cons, List.length_cons]
    rw [ih (encStep cfg st p) (fun d hd => hpre d (List.mem_cons_of_mem p hd)),
      encStep_len_nonfinal cfg st p (hpre p (List.mem_cons_self p ps))]
    omega

/-- C3: a complete error-free, uncancelled run over the `N` dates the
sequencer emitted, with `fps > 0`, makes exactly
`N + freezeFrame * fps` encode calls: one stepped frame per date plus
`freezeFrame * fps` freeze-frame repeats of the final frame. -/
theorem total_frames (inc : Int → DateInterval → MapDate)
    (interval : DateInterval) (start endD : MapDate) (fuel : Nat)
    (fps freeze : Nat) (l : List MapDate) (hfps : 0 < fps)
    (hl : dates inc interval start endD fuel = some l) :
    (runClean ⟨endD.days, fps, freeze⟩ l initState).state.muxed.length
      = l.length + freeze * fps := by
  obtain ⟨pre, lst, rfl, hpre, hlst⟩ :=
    datesAux_shape inc interval endD fuel start l hl
  simp only [runClean]
  rw [runTimelapse_clean ⟨endD.days, fps, freeze⟩ (pre ++ [lst]) initState
    rfl rfl]
  simp only [Outcome.state]
  rw [List.foldl_append, List.foldl_cons, List.foldl_nil,
    encStep_len_final ⟨endD.days, fps, freeze⟩ hfps _ lst hlst,
    foldl_nonfinal_len ⟨endD.days, fps, freeze⟩ pre initState hpre]
  simp [initState]

/-- Witness for C3: 3 sequencer dates, `fps = 1`, one second of freeze
frame, so `3 + 1 * 1 = 4` encode calls. -/
theorem total_frames_witness :
    (0 : Nat) < 1 ∧
    dates (fun d _ => ⟨d + 1, ""⟩) DateInterval.month ⟨0, "a"⟩ ⟨2, "b"⟩ 3
      = some [⟨0, "a"⟩, ⟨1, ""⟩, ⟨2, ""⟩] ∧
    (runClean ⟨(⟨2, "b"⟩ : MapDate).days, 1, 1⟩
        [⟨0, "a"⟩, ⟨1, ""⟩, ⟨2, ""⟩] initState).state.muxed.length
      = [(⟨0, "a"⟩ : MapDate), ⟨1, ""⟩, ⟨2, ""⟩].length + 1 * 1 :=
  ⟨by decide, by decide,
    total_frames (fun d _ => ⟨d + 1, ""⟩) DateInterval.month ⟨0, "a"⟩
      ⟨2, "b"⟩ 3 1 1 [⟨0, "a"⟩, ⟨1, ""⟩, ⟨2, ""⟩] (by decide) (by decide)⟩

/-! ## C4: timestamps -/

/-- The cursor field tracks the muxed length: it equals
`muxed.length * frameDuration`.  This holds before and after every stepped
frame but is broken by the freeze-frame phase, which never writes the
cursor. -/
def Aligned (fd : ℚ) (st : EncState) : Prop :=
  st.timestamp = (st.muxed.length : ℚ) * fd

/-- The presentation timestamps of the muxed chunks: the `i`-th chunk was
submitted at `i * frameDuration`. -/
def TsSpec (fd : ℚ) (st : EncState) : Prop :=
  ∀ i (h : i < st.muxed.length),
    ((st.muxed)[i]).timestamp = (i : ℚ) * fd

theorem tsSpec_encode (fd ts dur : ℚ) (d : Int) (st : EncState)
    (hta : ts = (st.muxed.length : ℚ) * fd) (hts : TsSpec fd st) :
    TsSpec fd (encodeFrame st ts dur d) := by
  intro i hi
  have hlen : (encodeFrame st ts dur d).muxed.length
      = st.muxed.length + 1 := encodeFrame_muxed_len st ts dur d
  show ((st.muxed ++
      [⟨ts, dur, decide ((st.frameCount + 1) % 150 = 0), d⟩])[i]).timestamp
    = (i : ℚ) * fd
  rw [getElem_append_one]
  by_cases hlt : i < st.muxed.length
  · rw [dif_pos hlt]
    exact hts i hlt
  · rw [dif_neg hlt]
    have hieq : i = st.muxed.length := by rw [hlen] at hi; omega
    subst hieq
    exact hta

theorem freezeAux_ts (fd limit : ℚ) (d : Int) :
    ∀ (fuel : Nat) (t : ℚ) (st : EncState),
      t = (st.muxed.length : ℚ) * fd → TsSpec fd st →
      TsSpec fd (freezeAux fd limit d fuel t st) := by
  intro fuel
  induction fuel with
  | zero => intro t st _ hts; exact hts
  | succ fuel ih =>
    intro t st hta hts
    simp only [freezeAux]
    split
    · refine ih (t + fd) (encodeFrame st t fd d) ?_
        (tsSpec_encode fd t fd d st hta hts)
      rw [encodeFrame_muxed_len]
      push_cast
      rw [hta]
      ring
    · exact hts

/-- Effect of one date iteration on the timestamp bookkeeping: the chunk
timestamps stay arithmetic with step `frameDuration`, the cursor field
advances by exactly one frame duration (once, regardless of how many
freeze repeats were encoded), and for non-final dates the cursor stays
aligned with the muxed length. -/
theorem encStep_ts (cfg : RunCfg) (st : EncState) (date : MapDate)
    (ha : Aligned (frameDuration cfg) st)
    (hts : TsSpec (frameDuration cfg) st) :
    TsSpec (frameDuration cfg) (encStep cfg st date) ∧
    (encStep cfg st date).timestamp = st.timestamp + frameDuration cfg ∧
    (date.days < cfg.endDays →
      Aligned (frameDuration cfg) (encStep cfg st date)) := by
  have hts2 : TsSpec (frameDuration cfg)
      (encodeFrame st st.timestamp (frameDuration cfg) date.days) :=
    tsSpec_encode (frameDuration cfg) st.timestamp (frameDuration cfg)
      date.days st ha hts
  have ha2 : st.timestamp + frameDuration cfg
      = (((encodeFrame st st.timestamp (frameDuration cfg)
          date.days).muxed.length : Nat) : ℚ) * frameDuration cfg := by
    rw [encodeFrame_muxed_len]
    push_cast
    rw [ha]
    ring
  simp only [encStep]
  by_cases hfin : cfg.endDays ≤ date.days
  · rw [if_pos hfin]
    refine ⟨?_, ?_, fun hlt => absurd hfin (not_le.mpr hlt)⟩
    · exact freezeAux_ts (frameDuration cfg) _ date.days _ _ _ ha2 hts2
    · exact (freezeAux_preserves _ _ _ _ _ _).2.2
  · rw [if_neg hfin]
    exact ⟨hts2, rfl, fun _ => ha2⟩

theorem foldl_ts (cfg : RunCfg) :
    ∀ (pre : List MapDate) (st : EncState),
      (∀ d ∈ pre, d.days < cfg.endDays) →
      Aligned (frameDuration cfg) st → TsSpec (frameDuration cfg) st →
      Aligned (frameDuration cfg) (pre.foldl (encStep cfg) st) ∧
      TsSpec (frameDuration cfg) (pre.foldl (encStep cfg) st) := by
  intro pre
  induction pre with
  | nil => intro st _ ha hts; exact ⟨ha, hts⟩
  | cons p ps ih =>
    intro st hpre ha hts
    simp only [List.foldl_cons]
    have h := encStep_ts cfg st p ha hts
    exact ih (encStep cfg st p)
      (fun d hd => hpre d (List.mem_cons_of_mem p hd))
      (h.2.2 (hpre p (List.mem_cons_self p ps))) h.1

/-- C4 counterexample: with `fps = 1`, `freezeFrame = 1` and the single
(final) date `(0, "a")`, the run makes 2 encode calls (one stepped frame
plus one freeze repeat) but the cursor field `this.timestamp` ends at
`1_000_000 = 1 * frameDuration`, not `2 * frameDuration`: the freeze-frame
repeat did not advance the cursor, so the cursor is not "advanced by
exactly one frame duration per encoded frame, for stepped frames and
freeze-frame repeats alike". -/
theorem cursor_freeze_counterexample :
    (runClean ⟨0, 1, 1⟩ [⟨0, "a"⟩] initState).state.muxed.length = 2 ∧
    (runClean ⟨0, 1, 1⟩ [⟨0, "a"⟩] initState).state.timestamp = 1000000 ∧
    ¬((runClean ⟨0, 1, 1⟩ [⟨0, "a"⟩] initState).state.timestamp
        = ((runClean ⟨0, 1, 1⟩ [⟨0, "a"⟩]
            initState).state.muxed.length : ℚ)
          * frameDuration ⟨0, 1, 1⟩) := by
  have hrun : runClean ⟨0, 1, 1⟩ [⟨0, "a"⟩] initState
      = Outcome.completed (encStep ⟨0, 1, 1⟩ initState ⟨0, "a"⟩) := by
    simp only [runClean]
    rw [runTimelapse_clean ⟨0, 1, 1⟩ [⟨0, "a"⟩] initState rfl rfl]
    rfl
  have hlen : (encStep ⟨0, 1, 1⟩ initState ⟨0, "a"⟩).muxed.length = 2 := by
    rw [encStep_len_final ⟨0, 1, 1⟩ (by norm_num) initState ⟨0, "a"⟩
      (by norm_num)]
    simp [initState]
  have hcur : (encStep ⟨0, 1, 1⟩ initState ⟨0, "a"⟩).timestamp
      = initState.timestamp + frameDuration ⟨0, 1, 1⟩ :=
    (encStep_ts ⟨0, 1, 1⟩ initState ⟨0, "a"⟩
      (by show (0 : ℚ) = _ * _; simp [initState])
      (fun i hi => by simp [initState] at hi)).2.1
  refine ⟨?_, ?_, ?_⟩
  · rw [hrun]
    exact hlen
  · rw [hrun]
    show (encStep ⟨0, 1, 1⟩ initState ⟨0, "a"⟩).timestamp = 1000000
    rw [hcur]
    show (0 : ℚ) + frameDuration ⟨0, 1, 1⟩ = 1000000
    unfold frameDuration
    norm_num
  · rw [hrun]
    show ¬((encStep ⟨0, 1, 1⟩ initState ⟨0, "a"⟩).timestamp
        = ((encStep ⟨0, 1, 1⟩ initState ⟨0, "a"⟩).muxed.length : ℚ)
          * frameDuration ⟨0, 1, 1⟩)
    rw [hcur, hlen]
    show ¬((0 : ℚ) + frameDuration ⟨0, 1, 1⟩
        = ((2 : Nat) : ℚ) * frameDuration ⟨0, 1, 1⟩)
    unfold frameDuration
    norm_num

/-- C4 (amended): in a complete clean run over the sequencer's dates with
`fps > 0`, the presentation timestamps of the encode calls are exactly
`i * frameDuration` for the `i`-th call — so successive encode calls are
one frame duration apart and monotonically non-decreasing, freeze-frame
repeats included — while the cursor field itself is advanced by one frame
duration only per stepped frame (ending at `N * frameDuration` for `N`
dates); freeze-frame repeats are timestamped from a loop-local variable
and leave the cursor unchanged. -/
theorem frame_timestamps (inc : Int → DateInterval → MapDate)
    (interval : DateInterval) (start endD : MapDate) (fuel : Nat)
    (fps freeze : Nat) (l : List MapDate) (hfps : 0 < fps)
    (hl : dates inc interval start endD fuel = some l) :
    (∀ i (h : i < (runClean ⟨endD.days, fps, freeze⟩ l
        initState).state.muxed.length),
      (((runClean ⟨endD.days, fps, freeze⟩ l
          initState).state.muxed)[i]).timestamp
        = (i : ℚ) * frameDuration ⟨endD.days, fps, freeze⟩) ∧
    (∀ i j (hi : i < (runClean ⟨endD.days, fps, freeze⟩ l
          initState).state.muxed.length)
        (hj : j < (runClean ⟨endD.days, fps, freeze⟩ l
          initState).state.muxed.length), i ≤ j →
      (((runClean ⟨endD.days, fps, freeze⟩ l
          initState).state.muxed)[i]).timestamp
        ≤ (((runClean ⟨endD.days, fps, freeze⟩ l
          initState).state.muxed)[j]).timestamp) ∧
    (runClean ⟨endD.days, fps, freeze⟩ l initState).state.timestamp
      = (l.length : ℚ) * frameDuration ⟨endD.days, fps, freeze⟩ := by
  obtain ⟨pre, lst, rfl, hpre, hlst⟩ :=
    datesAux_shape inc interval endD fuel start l hl
  have hrun : runClean ⟨endD.days, fps, freeze⟩ (pre ++ [lst]) initState
      = Outcome.completed ((pre ++ [lst]).foldl
          (encStep ⟨endD.days, fps, freeze⟩) initState) := by
    simp only [runClean]
    rw [runTimelapse_clean ⟨endD.days, fps, freeze⟩ (pre ++ [lst]) initState
      rfl rfl]
  simp only [hrun, Outcome.state, List.foldl_append, List.foldl_cons,
    List.foldl_nil]
  obtain ⟨haP, htsP⟩ := foldl_ts ⟨endD.days, fps, freeze⟩ pre initState hpre
    (by show (0 : ℚ) = _ * _; simp [initState])
    (fun i hi => by simp [initState] at hi)
  have hstep := encStep_ts ⟨endD.days, fps, freeze⟩
    (pre.foldl (encStep ⟨endD.days, fps, freeze⟩) initState) lst haP htsP
  have hfd0 : 0 ≤ frameDuration ⟨endD.days, fps, freeze⟩ := by
    unfold frameDuration
    positivity
  refine ⟨hstep.1, ?_, ?_⟩
  · intro i j hi hj hij
    rw [hstep.1 i hi, hstep.1 j hj]
    exact mul_le_mul_of_nonneg_right (by exact_mod_cast hij) hfd0
  · rw [hstep.2.1, haP,
      foldl_nonfinal_len ⟨endD.days, fps, freeze⟩ pre initState hpre]
    simp only [initState, List.length_nil, Nat.zero_add, List.length_append,
      List.length_singleton]
    push_cast
    ring

/-- Witness for C4 (amended): 2 sequencer dates and one freeze repeat at
`fps = 1`; the cursor ends at `2 * frameDuration` even though 3 frames
were encoded (one advance per stepped frame only). -/
theorem frame_timestamps_witness :
    (0 : Nat) < 1 ∧
    dates (fun d _ => ⟨d + 1, ""⟩) DateInterval.week ⟨0, "a"⟩ ⟨1, "b"⟩ 2
      = some [⟨0, "a"⟩, ⟨1, ""⟩] ∧
    (runClean ⟨(⟨1, "b"⟩ : MapDate).days, 1, 1⟩ [⟨0, "a"⟩, ⟨1, ""⟩]
        initState).state.timestamp
      = (([(⟨0, "a"⟩ : MapDate), ⟨1, ""⟩].length : Nat) : ℚ)
        * frameDuration ⟨(⟨1, "b"⟩ : MapDate).days, 1, 1⟩ :=
  ⟨by decide, by decide,
    (frame_timestamps (fun d _ => ⟨d + 1, ""⟩) DateInterval.week ⟨0, "a"⟩
      ⟨1, "b"⟩ 2 1 1 [⟨0, "a"⟩, ⟨1, ""⟩] (by decide) (by decide)).2.2⟩

end Timelapse
